import Mathlib

/-!
Shallow embedding of the idempotent source-patching engine of
`expo-plugin-worklet-cleanup` (`src/index.ts`, `withWorkletCleanup`).

The engine receives a language tag and the text of a generated
`AppDelegate.swift`, and either splices a fixed block of two lifecycle
callbacks (`CLEANUP_METHODS`) into the class body, or returns the text
unchanged with a reason.  Text is modelled as `List Char`; the three
anchor-strategy regexes of the source are embedded as explicit
leftmost-match scanners whose backtracking behaviour was derived from the
JS regex semantics pattern by pattern:

* strategy 1, `/(\n})\s*\n\s*(class ReactNativeDelegate)/` — after the
  literal `"\n}"`, the subpattern `\s*\n\s*` can match exactly the maximal
  whitespace run that follows, provided it contains a newline, because the
  following literal starts with a non-space character;
* strategy 2, `/(continue userActivity: NSUserActivity,[\s\S]*?return[^}]*}\s*\n)(})/`
  — the lazy `[\s\S]*?` scans forward position by position; after
  `return`, `[^}]*` must stop at the first closing brace, and `\s*\n`
  followed by `}` forces the maximal whitespace run after that brace to end
  with a newline immediately followed by a second brace;
* strategy 3, `/(}\s*\n)(}\s*(?:\n|$))/` — group 1 forces a whitespace run
  ending in a newline between the two braces; in group 2, `\s*(?:\n|$)`
  takes the whole trailing whitespace run when the string ends there, and
  otherwise ends at the last newline of that run.

Each scanner returns the decomposition of the text around the match
(prefix, captured groups, suffix), so that the splice rules of the source
(`replace` with `$1`/`$2` templates) are literal list concatenations.
-/

namespace WorkletCleanup

set_option maxRecDepth 100000

/-- Character class `\s` of JavaScript regular expressions. -/
def isSpace (c : Char) : Bool :=
  c == ' ' || c == '\t' || c == '\n' || c == '\r' || c == '\x0b' || c == '\x0c' ||
  c == '\u00a0' || c == '\u1680' ||
  (decide ('\u2000' ≤ c) && decide (c ≤ '\u200a')) ||
  c == '\u2028' || c == '\u2029' || c == '\u202f' || c == '\u205f' ||
  c == '\u3000' || c == '\ufeff'

/-- Character class `[^}]` of `lastMethodRegex`. -/
def notBrace (c : Char) : Bool := c != '\x7d'

/-- JavaScript `String.prototype.includes` on `List Char`. -/
def includesSub : List Char → List Char → Bool
  | [], needle => needle.isEmpty
  | c :: t, needle => List.isPrefixOf needle (c :: t) || includesSub t needle

/-- Index of the first occurrence of `needle` in `hay` (JS `indexOf`,
with `none` in place of `-1`). -/
def indexOfSub : List Char → List Char → Option Nat
  | [], needle => if needle.isEmpty then some 0 else none
  | c :: t, needle =>
    if List.isPrefixOf needle (c :: t) then some 0
    else (indexOfSub t needle).map (fun n => n + 1)

/-- JavaScript `String.prototype.indexOf`: `-1` when absent. -/
def jsIndexOf (hay needle : List Char) : Int :=
  match indexOfSub hay needle with
  | some n => (n : Int)
  | none => -1

/-- Marker of callback B: the source checks `contents.includes('applicationWillTerminate')`. -/
def markerTerminate : List Char := String.toList "applicationWillTerminate"

/-- Marker of callback A: the source checks `contents.includes('applicationDidEnterBackground')`. -/
def markerBackground : List Char := String.toList "applicationDidEnterBackground"

/-- Literal `class ReactNativeDelegate` of `classEndRegex` (strategy 1). -/
def classRND : List Char := String.toList "class ReactNativeDelegate"

/-- Literal `continue userActivity: NSUserActivity,` of `lastMethodRegex` (strategy 2). -/
def contUA : List Char := String.toList "continue userActivity: NSUserActivity,"

/-- Literal `return` of `lastMethodRegex` (strategy 2). -/
def retKw : List Char := String.toList "return"

/-- Literal `class ` of the strategy-3 lookahead guard. -/
def classSp : List Char := String.toList "class "

/-- The fixed injection block `CLEANUP_METHODS` of the source, verbatim. -/
def CLEANUP_METHODS : List Char := String.toList
  "\n  // Background notification to allow native modules to prepare for potential termination\n  // Added by expo-plugin-worklet-cleanup\n  public override func applicationDidEnterBackground(_ application: UIApplication) \x7b\n    // Post notification that app is entering background\n    // Native modules can listen to this to pause operations gracefully\n    NotificationCenter.default.post(\n      name: NSNotification.Name(\"RNAppDidEnterBackground\"),\n      object: self\n    )\n    super.applicationDidEnterBackground(application)\n  \x7d\n\n  // Cleanup on app termination to prevent worklet crashes during force-quit\n  // Added by expo-plugin-worklet-cleanup\n  // Note: This is NOT reliably called on iOS 13+ for app switcher kills\n  public override func applicationWillTerminate(_ application: UIApplication) \x7b\n    // Notify the bridge to invalidate and cancel pending worklet operations\n    NotificationCenter.default.post(\n      name: NSNotification.Name(\"RCTBridgeWillInvalidateNotification\"),\n      object: self\n    )\n    super.applicationWillTerminate(application)\n  \x7d\n"

/-- Match of `classEndRegex` anchored at the start of `s`: `s` begins with
`"\n}"`, then a whitespace run `w` containing a newline, then the literal
`class ReactNativeDelegate`.  Returns `(w, post)` where `post` is the text
after the literal. -/
def s1MatchHere (s : List Char) : Option (List Char × List Char) :=
  match s with
  | c1 :: c2 :: rest =>
    if c1 = '\n' ∧ c2 = '\x7d' then
      let w := rest.takeWhile isSpace
      let r := rest.dropWhile isSpace
      if w.contains '\n' ∧ List.isPrefixOf classRND r then
        some (w, r.drop classRND.length)
      else none
    else none
  | _ => none

/-- Leftmost match of `classEndRegex`: scans start positions left to right,
accumulating the prefix before the match. -/
def s1Find : List Char → Option (List Char × List Char × List Char)
  | [] => none
  | c :: t =>
    match s1MatchHere (c :: t) with
    | some (w, post) => some ([], w, post)
    | none => (s1Find t).map (fun x => (c :: x.1, x.2.1, x.2.2))

/-- Strategy 1 of the source: on a match of `classEndRegex`, replace the
match with `` `${CLEANUP_METHODS}$1\n\n$2` `` where `$1 = "\n}"` and
`$2 = "class ReactNativeDelegate"`.  The whitespace run between the two
captured groups is not kept: the replacement writes exactly two newlines. -/
def strategy1 (contents : List Char) : Option (List Char) :=
  (s1Find contents).map fun x =>
    x.1 ++ CLEANUP_METHODS ++ '\n' :: '\x7d' :: '\n' :: '\n' :: (classRND ++ x.2.2)

/-- Tail of `lastMethodRegex` after the lazy `[\s\S]*?`, anchored at the
start of `rest`: the literal `return`, then `[^}]*` (the run `u` up to the
first closing brace), that brace, then `\s*\n` (a whitespace run `v` ending
in a newline) and the closing brace of capture group 2.  Returns the text
consumed by group 1 from `return` on, and the text after group 2. -/
def s2After (rest : List Char) : Option (List Char × List Char) :=
  if List.isPrefixOf retKw rest then
    let t := rest.drop retKw.length
    let u := t.takeWhile notBrace
    match t.dropWhile notBrace with
    | b :: t2 =>
      if b = '\x7d' then
        let v := t2.takeWhile isSpace
        match t2.dropWhile isSpace with
        | b2 :: post =>
          if b2 = '\x7d' ∧ v.getLast? = some '\n' then
            some (retKw ++ u ++ '\x7d' :: v, post)
          else none
        | [] => none
      else none
    | [] => none
  else none

/-- Lazy scan `[\s\S]*?` of `lastMethodRegex`: try `s2After` at each
position, shortest skipped prefix first. -/
def s2Scan : List Char → Option (List Char × List Char × List Char)
  | [] => (s2After []).map (fun x => ([], x.1, x.2))
  | c :: t =>
    match s2After (c :: t) with
    | some (con, post) => some ([], con, post)
    | none => (s2Scan t).map (fun x => (c :: x.1, x.2.1, x.2.2))

/-- Match of `lastMethodRegex` anchored at the start of `s`: the literal
`continue userActivity: NSUserActivity,` followed by the lazy scan.
Returns `(g1, post)` with `g1` capture group 1; group 2 is always `"}"`. -/
def s2MatchHere (s : List Char) : Option (List Char × List Char) :=
  if List.isPrefixOf contUA s then
    (s2Scan (s.drop contUA.length)).map (fun x => (contUA ++ x.1 ++ x.2.1, x.2.2))
  else none

/-- Leftmost match of `lastMethodRegex`. -/
def s2Find : List Char → Option (List Char × List Char × List Char)
  | [] => none
  | c :: t =>
    match s2MatchHere (c :: t) with
    | some (g1, post) => some ([], g1, post)
    | none => (s2Find t).map (fun x => (c :: x.1, x.2.1, x.2.2))

/-- Strategy 2 of the source: on a match of `lastMethodRegex`, replace the
match with `` `$1${CLEANUP_METHODS}$2` ``, keeping both captured groups
verbatim (`$2 = "}"`). -/
def strategy2 (contents : List Char) : Option (List Char) :=
  (s2Find contents).map fun x =>
    x.1 ++ x.2.1 ++ CLEANUP_METHODS ++ '\x7d' :: x.2.2

/-- Split a list at its last newline: `v = v1 ++ '\n' :: v2` with no newline
in `v2`. -/
def lastNlSplit : List Char → Option (List Char × List Char)
  | [] => none
  | c :: t =>
    match lastNlSplit t with
    | some (a, b) => some (c :: a, b)
    | none => if c = '\n' then some ([], t) else none

/-- Match of `genericMethodEndRegex` anchored at the start of `s`:
group 1 `(}\s*\n)` is a closing brace and a whitespace run ending in a
newline; group 2 `(}\s*(?:\n|$))` is a second closing brace followed either
by all trailing whitespace up to the end of the text, or by whitespace up to
and including its last newline.  Returns `(g1, g2, post)`. -/
def s3MatchHere (s : List Char) : Option (List Char × List Char × List Char) :=
  match s with
  | c1 :: t =>
    if c1 = '\x7d' then
      let w := t.takeWhile isSpace
      if w.getLast? = some '\n' then
        match t.dropWhile isSpace with
        | c2 :: t2 =>
          if c2 = '\x7d' then
            let v := t2.takeWhile isSpace
            match t2.dropWhile isSpace with
            | [] => some ('\x7d' :: w, '\x7d' :: v, [])
            | rest3 =>
              match lastNlSplit v with
              | some (v1, v2) =>
                some ('\x7d' :: w, '\x7d' :: (v1 ++ ['\n']), v2 ++ rest3)
              | none => none
          else none
        | [] => none
      else none
    else none
  | [] => none

/-- Leftmost match of `genericMethodEndRegex`. -/
def s3Find : List Char → Option (List Char × List Char × List Char × List Char)
  | [] => none
  | c :: t =>
    match s3MatchHere (c :: t) with
    | some (g1, g2, post) => some ([], g1, g2, post)
    | none => (s3Find t).map (fun x => (c :: x.1, x.2.1, x.2.2.1, x.2.2.2))

/-- Lookahead guard of strategy 3, on the text after the match:
`!afterMatch.includes('class ') || afterMatch.indexOf('class ') > 50`. -/
def s3Guard (afterMatch : List Char) : Bool :=
  !(includesSub afterMatch classSp) || decide (jsIndexOf afterMatch classSp > 50)

/-- Strategy 3 of the source: on a leftmost match of
`genericMethodEndRegex` whose guard passes, replace the match with
`` `$1${CLEANUP_METHODS}$2` ``.  When the guard fails nothing is applied
(the source does not look for a later match). -/
def strategy3 (contents : List Char) : Option (List Char) :=
  match s3Find contents with
  | some (pre, g1, g2, post) =>
    if s3Guard post then some (pre ++ g1 ++ CLEANUP_METHODS ++ g2 ++ post) else none
  | none => none

/-- Reasons of the patch result, one per console-logged path of the source. -/
inductive Reason
  | unsupportedDialect
  | alreadyPresent
  | partiallyPresent
  | noAnchorFound
  | appliedStrategy1
  | appliedStrategy2
  | appliedStrategy3
deriving DecidableEq, Repr

/-- Result of one engine invocation: the (possibly modified) text, whether a
change was made, and the reason path taken. -/
structure PatchResult where
  sourceText : List Char
  applied : Bool
  reason : Reason
deriving DecidableEq, Repr

/-- The patch engine `withWorkletCleanup` of `src/index.ts`: dialect gate,
duplicate/partial marker detection, then the three anchor strategies in
order. -/
def withWorkletCleanup (language : String) (contents : List Char) : PatchResult :=
  if language ≠ "swift" then ⟨contents, false, .unsupportedDialect⟩
  else if includesSub contents markerTerminate && includesSub contents markerBackground then
    ⟨contents, false, .alreadyPresent⟩
  else if includesSub contents markerTerminate || includesSub contents markerBackground then
    ⟨contents, false, .partiallyPresent⟩
  else
    match strategy1 contents with
    | some out => ⟨out, true, .appliedStrategy1⟩
    | none =>
      match strategy2 contents with
      | some out => ⟨out, true, .appliedStrategy2⟩
      | none =>
        match strategy3 contents with
        | some out => ⟨out, true, .appliedStrategy3⟩
        | none => ⟨contents, false, .noAnchorFound⟩

/-- Concrete input for claim C1: a two-class template whose whitespace run
between the primary closing brace and the auxiliary class is one newline,
not two. -/
def c1In : List Char := String.toList
  "class AppDelegate \x7b\n\x7d\nclass ReactNativeDelegate \x7b\n\x7d\n"

/-- Concrete input applied via strategy 3 (no auxiliary class, no
`continue userActivity` method). -/
def c1WIn : List Char := String.toList
  "class AppDelegate \x7b\n  func f() \x7b\n  \x7d\n\x7d\n"

/-- Concrete two-class template applied via strategy 1. -/
def c2In : List Char := String.toList
  "class AppDelegate \x7b\n\x7d\n\nclass ReactNativeDelegate \x7b\n\x7d\n"

/-- Concrete input matching both the strategy-1 and the strategy-2 pattern. -/
def c3In : List Char := String.toList
  "class AppDelegate \x7b\n  func application(_ app: UIApplication, continue userActivity: NSUserActivity, restorationHandler: Any) -> Bool \x7b\n    return true\n  \x7d\n\x7d\n\nclass ReactNativeDelegate \x7b\n\x7d\n"

/-- Concrete input whose only generic method-end match is followed by a new
class declaration 0 characters later. -/
def c4In : List Char := String.toList
  "class A \x7b\n  func f() \x7b\n  \x7d\n\x7d\nclass B \x7b\n\x7d\n"

/-- Concrete input containing only the background marker. -/
def c5In : List Char := String.toList
  "class AppDelegate \x7b\n  // uses applicationDidEnterBackground\n\x7d\n"

/-- Concrete input that would match strategy 1, used with an unsupported
dialect tag. -/
def c6In : List Char := String.toList
  "class AppDelegate \x7b\n\x7d\nclass ReactNativeDelegate \x7b\n\x7d\n"

/-- Concrete input containing both markers. -/
def c7In : List Char := String.toList
  "// applicationWillTerminate and applicationDidEnterBackground\n"

/-- Concrete input with no recognizable anchor (a single empty class). -/
def c8In : List Char := String.toList
  "class A \x7b\n\x7d\n"

/-- Concrete input whose only marker occurrence is inside a comment, while
the text itself would match strategy 1. -/
def c10In : List Char := String.toList
  "// see applicationWillTerminate docs\nclass AppDelegate \x7b\n\x7d\nclass ReactNativeDelegate \x7b\n\x7d\n"

/-- Substring containment is equivalent to a three-way decomposition. -/
theorem includesSub_iff {hay needle : List Char} :
    includesSub hay needle = true ↔ ∃ a b, hay = a ++ needle ++ b := by
  induction hay with
  | nil =>
    constructor
    · intro h
      have hn : needle = [] := by simpa [includesSub, List.isEmpty_iff] using h
      exact ⟨[], [], by simp [hn]⟩
    · rintro ⟨a, b, h⟩
      have h1 := List.append_eq_nil.mp h.symm
      have h2 := List.append_eq_nil.mp h1.1
      simp [includesSub, List.isEmpty_iff, h2.2]
  | cons c t ih =>
    constructor
    · intro h
      have h' : List.isPrefixOf needle (c :: t) = true ∨ includesSub t needle = true := by
        simpa [includesSub] using h
      rcases h' with hp | hrec
      · obtain ⟨b, hb⟩ := List.isPrefixOf_iff_prefix.mp hp
        exact ⟨[], b, by simp [← hb]⟩
      · obtain ⟨a, b, ht⟩ := ih.mp hrec
        exact ⟨c :: a, b, by simp [ht]⟩
    · rintro ⟨a, b, h⟩
      match a, h with
      | [], h =>
        have hp : List.isPrefixOf needle (c :: t) = true :=
          List.isPrefixOf_iff_prefix.mpr ⟨b, by simpa using h.symm⟩
        simp [includesSub, hp]
      | a0 :: a', h =>
        have ht : t = a' ++ needle ++ b := by
          have h2 : c = a0 ∧ t = a' ++ (needle ++ b) := by simpa using h
          simpa using h2.2
        have : includesSub t needle = true := ih.mpr ⟨a', b, ht⟩
        simp [includesSub, this]

/-- Containment is preserved when the containing text is itself embedded in
a larger one. -/
theorem includesSub_of_inner {a m b n : List Char} (h : includesSub m n = true) :
    includesSub (a ++ m ++ b) n = true := by
  obtain ⟨x, y, hx⟩ := includesSub_iff.mp h
  exact includesSub_iff.mpr ⟨a ++ x, y ++ b, by simp [hx]⟩

/-- A match of strategy 1 anchored at the front decomposes the text as the
two-character literal, the whitespace run and the auxiliary class literal. -/
theorem s1MatchHere_eq {s w post : List Char}
    (h : s1MatchHere s = some (w, post)) :
    s = '\n' :: '\x7d' :: (w ++ classRND ++ post) ∧
      (∀ ch ∈ w, isSpace ch = true) ∧ '\n' ∈ w := by
  match s with
  | [] => simp [s1MatchHere] at h
  | [c1] => simp [s1MatchHere] at h
  | c1 :: c2 :: rest =>
    simp only [s1MatchHere] at h
    split_ifs at h with h1 h2
    obtain ⟨hc1, hc2⟩ := h1
    obtain ⟨hnl, hpre⟩ := h2
    obtain ⟨tl, htl⟩ := List.isPrefixOf_iff_prefix.mp hpre
    have hw : rest.takeWhile isSpace = w ∧ (rest.dropWhile isSpace).drop classRND.length = post := by
      simpa using h
    refine ⟨?_, ?_, ?_⟩
    · have hpost : tl = post := by
        have h3 := hw.2
        rw [← htl, List.drop_left] at h3
        exact h3
      have hdrop : rest.dropWhile isSpace = classRND ++ post := by rw [← htl, hpost]
      have hrest : rest = w ++ classRND ++ post := by
        conv_lhs => rw [← List.takeWhile_append_dropWhile isSpace rest]
        rw [hw.1, hdrop, List.append_assoc]
      rw [hc1, hc2, hrest]
    · intro ch hch
      exact List.mem_takeWhile_imp (hw.1 ▸ hch)
    · exact List.elem_iff.mp (hw.1 ▸ hnl)

/-- The leftmost strategy-1 match decomposes the whole text. -/
theorem s1Find_eq : ∀ {s pre w post : List Char},
    s1Find s = some (pre, w, post) →
    s = pre ++ '\n' :: '\x7d' :: (w ++ classRND ++ post) ∧
      (∀ ch ∈ w, isSpace ch = true) ∧ '\n' ∈ w := by
  intro s
  induction s with
  | nil => intro pre w post h; simp [s1Find] at h
  | cons c t ih =>
    intro pre w post h
    simp only [s1Find] at h
    cases hm : s1MatchHere (c :: t) with
    | some x =>
      obtain ⟨w', post'⟩ := x
      rw [hm] at h
      have hx := s1MatchHere_eq hm
      simp only [Option.some.injEq, Prod.mk.injEq] at h
      obtain ⟨hpre, hww, hpp⟩ := h
      subst hpre; subst hww; subst hpp
      simpa using hx
    | none =>
      rw [hm] at h
      simp only [Option.map_eq_some', Prod.mk.injEq] at h
      obtain ⟨⟨p', w', post'⟩, hf, hp, hw2, hp2⟩ := h
      subst hp; subst hw2; subst hp2
      obtain ⟨ht, hall, hmem⟩ := ih hf
      exact ⟨by rw [List.cons_append, ← ht], hall, hmem⟩

/-- The tail matcher of strategy 2 consumes exactly group 1 (from `return`
on) and the single-brace group 2. -/
theorem s2After_eq {rest con post : List Char}
    (h : s2After rest = some (con, post)) :
    rest = con ++ '\x7d' :: post := by
  by_cases hret : List.isPrefixOf retKw rest
  case neg => simp [s2After, hret] at h
  case pos =>
  obtain ⟨t0, ht0⟩ := List.isPrefixOf_iff_prefix.mp hret
  have hdrop : rest.drop retKw.length = t0 := by rw [← ht0, List.drop_left]
  cases hdw : t0.dropWhile notBrace with
  | nil => simp [s2After, hret, hdrop, hdw] at h
  | cons b t2 =>
    by_cases hb : b = '\x7d'
    case neg => simp [s2After, hret, hdrop, hdw, hb] at h
    case pos =>
    cases hdw2 : t2.dropWhile isSpace with
    | nil => simp [s2After, hret, hdrop, hdw, hb, hdw2] at h
    | cons b2 post' =>
      by_cases hcond : b2 = '\x7d' ∧ (t2.takeWhile isSpace).getLast? = some '\n'
      case neg => simp [s2After, hret, hdrop, hdw, hb, hdw2, hcond] at h
      case pos =>
      have h' : retKw ++ t0.takeWhile notBrace ++ '\x7d' :: t2.takeWhile isSpace = con
          ∧ post' = post := by
        simpa [s2After, hret, hdrop, hdw, hb, hdw2, hcond] using h
      obtain ⟨hcon, hpost⟩ := h'
      have ht2 : t2 = t2.takeWhile isSpace ++ b2 :: post' := by
        conv_lhs => rw [← List.takeWhile_append_dropWhile isSpace t2]
        rw [hdw2]
      have ht0' : t0 = t0.takeWhile notBrace ++ b :: t2 := by
        conv_lhs => rw [← List.takeWhile_append_dropWhile notBrace t0]
        rw [hdw]
      rw [← ht0, ht0', ht2, ← hcon, hb, hcond.1, hpost]
      simp

/-- The lazy scan of strategy 2 decomposes its input as the skipped prefix,
group 1 from `return` on, and the brace of group 2. -/
theorem s2Scan_eq : ∀ {s m con post : List Char},
    s2Scan s = some (m, con, post) →
    s = m ++ con ++ '\x7d' :: post := by
  intro s
  induction s with
  | nil =>
    intro m con post h
    simp only [s2Scan, Option.map_eq_some'] at h
    obtain ⟨x, hx, heq⟩ := h
    have := s2After_eq hx
    simp only [Prod.mk.injEq] at heq
    obtain ⟨hm, hcon, hpost⟩ := heq
    rw [← hm, ← hcon, ← hpost]
    simp at this
  | cons c t ih =>
    intro m con post h
    simp only [s2Scan] at h
    cases ha : s2After (c :: t) with
    | some x =>
      obtain ⟨con', post'⟩ := x
      rw [ha] at h
      simp only [Option.some.injEq, Prod.mk.injEq] at h
      obtain ⟨hm, hcon, hpost⟩ := h
      rw [← hm, ← hcon, ← hpost]
      simpa using s2After_eq ha
    | none =>
      rw [ha] at h
      simp only [Option.map_eq_some', Prod.mk.injEq] at h
      obtain ⟨⟨m', con', post'⟩, hf, hm, hcon, hpost⟩ := h
      rw [← hm, ← hcon, ← hpost]
      have := ih hf
      simp [this]

/-- An anchored match of strategy 2 decomposes the text as group 1 followed
by the closing brace of group 2. -/
theorem s2MatchHere_eq {s g1 post : List Char}
    (h : s2MatchHere s = some (g1, post)) :
    s = g1 ++ '\x7d' :: post := by
  by_cases hua : List.isPrefixOf contUA s
  case neg => simp [s2MatchHere, hua] at h
  case pos =>
  obtain ⟨t0, ht0⟩ := List.isPrefixOf_iff_prefix.mp hua
  have hdrop : s.drop contUA.length = t0 := by rw [← ht0, List.drop_left]
  simp only [s2MatchHere, hua, if_pos, hdrop, Option.map_eq_some', Prod.mk.injEq] at h
  obtain ⟨⟨m, con, post'⟩, hf, hg1, hpost⟩ := h
  have := s2Scan_eq hf
  rw [← ht0, this, ← hg1, ← hpost]
  simp

/-- The leftmost strategy-2 match decomposes the whole text. -/
theorem s2Find_eq : ∀ {s pre g1 post : List Char},
    s2Find s = some (pre, g1, post) →
    s = pre ++ g1 ++ '\x7d' :: post := by
  intro s
  induction s with
  | nil => intro pre g1 post h; simp [s2Find] at h
  | cons c t ih =>
    intro pre g1 post h
    simp only [s2Find] at h
    cases hm : s2MatchHere (c :: t) with
    | some x =>
      obtain ⟨g1', post'⟩ := x
      rw [hm] at h
      simp only [Option.some.injEq, Prod.mk.injEq] at h
      obtain ⟨hpre, hg, hp⟩ := h
      rw [← hpre, ← hg, ← hp]
      simpa using s2MatchHere_eq hm
    | none =>
      rw [hm] at h
      simp only [Option.map_eq_some', Prod.mk.injEq] at h
      obtain ⟨⟨p', g1', post'⟩, hf, hp, hg, hp2⟩ := h
      rw [← hp, ← hg, ← hp2]
      have := ih hf
      simp [this]

/-- Splitting at the last newline is a decomposition. -/
theorem lastNlSplit_eq : ∀ {v a b : List Char},
    lastNlSplit v = some (a, b) → v = a ++ '\n' :: b := by
  intro v
  induction v with
  | nil => intro a b h; simp [lastNlSplit] at h
  | cons c t ih =>
    intro a b h
    simp only [lastNlSplit] at h
    cases hl : lastNlSplit t with
    | some x =>
      obtain ⟨a', b'⟩ := x
      rw [hl] at h
      simp only [Option.some.injEq, Prod.mk.injEq] at h
      obtain ⟨ha, hb⟩ := h
      rw [← ha, ← hb]
      have := ih hl
      rw [List.cons_append, ← this]
    | none =>
      rw [hl] at h
      by_cases hc : c = '\n'
      · simp only [hc, if_pos, Option.some.injEq, Prod.mk.injEq] at h
        obtain ⟨ha, hb⟩ := h
        rw [← ha, ← hb, hc]
        simp
      · simp [hc] at h

/-- An anchored match of strategy 3 decomposes the text as its two captured
groups followed by the rest. -/
theorem s3MatchHere_eq {s g1 g2 post : List Char}
    (h : s3MatchHere s = some (g1, g2, post)) :
    s = g1 ++ g2 ++ post := by
  match s with
  | [] => simp [s3MatchHere] at h
  | c1 :: t =>
    by_cases hc1 : c1 = '\x7d'
    case neg => simp [s3MatchHere, hc1] at h
    case pos =>
    by_cases hgl : (t.takeWhile isSpace).getLast? = some '\n'
    case neg => simp [s3MatchHere, hc1, hgl] at h
    case pos =>
    cases hdw : t.dropWhile isSpace with
    | nil => simp [s3MatchHere, hc1, hgl, hdw] at h
    | cons c2 t2 =>
      by_cases hc2 : c2 = '\x7d'
      case neg => simp [s3MatchHere, hc1, hgl, hdw, hc2] at h
      case pos =>
      have ht : t = t.takeWhile isSpace ++ c2 :: t2 := by
        conv_lhs => rw [← List.takeWhile_append_dropWhile isSpace t]
        rw [hdw]
      have ht2 : t2 = t2.takeWhile isSpace ++ t2.dropWhile isSpace :=
        (List.takeWhile_append_dropWhile isSpace t2).symm
      cases hdw2 : t2.dropWhile isSpace with
      | nil =>
        have h' : '\x7d' :: t.takeWhile isSpace = g1 ∧ '\x7d' :: t2.takeWhile isSpace = g2
            ∧ ([] : List Char) = post := by
          simpa [s3MatchHere, hc1, hgl, hdw, hc2, hdw2] using h
        obtain ⟨hg1, hg2, hpost⟩ := h'
        subst hc1; subst hc2
        rw [← hg1, ← hg2, ← hpost]
        have ht2' : t2 = t2.takeWhile isSpace := by
          conv_lhs => rw [← List.takeWhile_append_dropWhile isSpace t2]
          rw [hdw2]; simp
        conv_lhs => rw [ht, ht2']
        simp
      | cons r3h r3t =>
        cases hls : lastNlSplit (t2.takeWhile isSpace) with
        | none => simp [s3MatchHere, hc1, hgl, hdw, hc2, hdw2, hls] at h
        | some y =>
          obtain ⟨v1, v2⟩ := y
          have h' : '\x7d' :: t.takeWhile isSpace = g1 ∧ '\x7d' :: (v1 ++ ['\n']) = g2
              ∧ v2 ++ r3h :: r3t = post := by
            simpa [s3MatchHere, hc1, hgl, hdw, hc2, hdw2, hls] using h
          obtain ⟨hg1, hg2, hpost⟩ := h'
          have hv : t2.takeWhile isSpace = v1 ++ '\n' :: v2 := lastNlSplit_eq hls
          subst hc1; subst hc2
          rw [← hg1, ← hg2, ← hpost]
          rw [hdw2] at ht2
          conv_lhs => rw [ht, ht2, hv]
          simp

/-- The leftmost strategy-3 match decomposes the whole text. -/
theorem s3Find_eq : ∀ {s pre g1 g2 post : List Char},
    s3Find s = some (pre, g1, g2, post) →
    s = pre ++ g1 ++ g2 ++ post := by
  intro s
  induction s with
  | nil => intro pre g1 g2 post h; simp [s3Find] at h
  | cons c t ih =>
    intro pre g1 g2 post h
    simp only [s3Find] at h
    cases hm : s3MatchHere (c :: t) with
    | some x =>
      obtain ⟨g1', g2', post'⟩ := x
      rw [hm] at h
      simp only [Option.some.injEq, Prod.mk.injEq] at h
      obtain ⟨hpre, hg1, hg2, hp⟩ := h
      rw [← hpre, ← hg1, ← hg2, ← hp]
      simpa using s3MatchHere_eq hm
    | none =>
      rw [hm] at h
      simp only [Option.map_eq_some', Prod.mk.injEq] at h
      obtain ⟨⟨p', g1', g2', post'⟩, hf, hp, hg1, hg2, hp2⟩ := h
      rw [← hp, ← hg1, ← hg2, ← hp2]
      have := ih hf
      simp [this]

/-- A successful strategy 1 decomposes the input around its match and
rebuilds the output with the injection block before the closing brace and
exactly two newlines in place of the matched whitespace run. -/
theorem strategy1_decomp {c out : List Char} (h : strategy1 c = some out) :
    ∃ a w b, c = a ++ '\n' :: '\x7d' :: (w ++ classRND ++ b) ∧
      out = a ++ CLEANUP_METHODS ++ '\n' :: '\x7d' :: '\n' :: '\n' :: (classRND ++ b) ∧
      (∀ ch ∈ w, isSpace ch = true) ∧ '\n' ∈ w := by
  simp only [strategy1, Option.map_eq_some'] at h
  obtain ⟨⟨pre, w, post⟩, hf, hout⟩ := h
  obtain ⟨hc, hall, hmem⟩ := s1Find_eq hf
  exact ⟨pre, w, post, hc, by simp [← hout], hall, hmem⟩

/-- A successful strategy 2 only inserts the injection block: input and
output share a decomposition around it. -/
theorem strategy2_decomp {c out : List Char} (h : strategy2 c = some out) :
    ∃ a b, c = a ++ b ∧ out = a ++ CLEANUP_METHODS ++ b := by
  simp only [strategy2, Option.map_eq_some'] at h
  obtain ⟨⟨pre, g1, post⟩, hf, hout⟩ := h
  have hc := s2Find_eq hf
  exact ⟨pre ++ g1, '\x7d' :: post, by simp [hc], by simp [← hout]⟩

/-- A successful strategy 3 only inserts the injection block: input and
output share a decomposition around it. -/
theorem strategy3_decomp {c out : List Char} (h : strategy3 c = some out) :
    ∃ a b, c = a ++ b ∧ out = a ++ CLEANUP_METHODS ++ b := by
  unfold strategy3 at h
  cases hf : s3Find c with
  | none => rw [hf] at h; simp at h
  | some x =>
    obtain ⟨pre, g1, g2, post⟩ := x
    rw [hf] at h
    by_cases hg : s3Guard post = true
    · simp only [hg, if_pos, Option.some.injEq] at h
      have hc := s3Find_eq hf
      exact ⟨pre ++ g1, g2 ++ post, by simp [hc], by simp [← h]⟩
    · simp [hg] at h

/-- An application implies the dialect gate and both marker checks passed,
and the output came from the first succeeding strategy. -/
theorem applied_strategies {language : String} {contents : List Char}
    (h : (withWorkletCleanup language contents).applied = true) :
    language = "swift" ∧
    includesSub contents markerTerminate = false ∧
    includesSub contents markerBackground = false ∧
    (strategy1 contents = some (withWorkletCleanup language contents).sourceText ∨
     strategy2 contents = some (withWorkletCleanup language contents).sourceText ∨
     strategy3 contents = some (withWorkletCleanup language contents).sourceText) := by
  by_cases hl : language = "swift"
  case neg => simp [withWorkletCleanup, hl] at h
  case pos =>
  subst hl
  cases hT : includesSub contents markerTerminate <;>
    cases hB : includesSub contents markerBackground
  case true.true => simp [withWorkletCleanup, hT, hB] at h
  case true.false => simp [withWorkletCleanup, hT, hB] at h
  case false.true => simp [withWorkletCleanup, hT, hB] at h
  case false.false =>
  refine ⟨rfl, rfl, rfl, ?_⟩
  simp only [withWorkletCleanup, hT, hB] at h ⊢
  cases hs1 : strategy1 contents with
  | some out => simp
  | none =>
    cases hs2 : strategy2 contents with
    | some out => simp
    | none =>
      cases hs3 : strategy3 contents with
      | some out => simp
      | none => simp [hs1, hs2, hs3] at h

/-- Every applied output contains the injection block. -/
theorem applied_infix {language : String} {contents : List Char}
    (h : (withWorkletCleanup language contents).applied = true) :
    ∃ a b, (withWorkletCleanup language contents).sourceText = a ++ CLEANUP_METHODS ++ b := by
  obtain ⟨-, -, -, hs⟩ := applied_strategies h
  rcases hs with h1 | h2 | h3
  · obtain ⟨a, w, b, -, hout, -, -⟩ := strategy1_decomp h1
    exact ⟨a, _, hout⟩
  · obtain ⟨a, b, -, hout⟩ := strategy2_decomp h2
    exact ⟨a, b, hout⟩
  · obtain ⟨a, b, -, hout⟩ := strategy3_decomp h3
    exact ⟨a, b, hout⟩

/-- The injection block contains the termination marker. -/
theorem cleanup_has_terminate : includesSub CLEANUP_METHODS markerTerminate = true := by decide

/-- The injection block contains the background marker. -/
theorem cleanup_has_background : includesSub CLEANUP_METHODS markerBackground = true := by decide

/-- On a supported-dialect text containing both markers the engine reports
the block as already present and changes nothing. -/
theorem run_already_present {out : List Char}
    (hT : includesSub out markerTerminate = true)
    (hB : includesSub out markerBackground = true) :
    withWorkletCleanup "swift" out = ⟨out, false, Reason.alreadyPresent⟩ := by
  simp [withWorkletCleanup, hT, hB]

/-- A found index implies containment. -/
theorem includesSub_of_indexOf : ∀ {hay needle : List Char} {n : Nat},
    indexOfSub hay needle = some n → includesSub hay needle = true := by
  intro hay
  induction hay with
  | nil =>
    intro needle n h
    simp only [indexOfSub] at h
    by_cases he : needle.isEmpty
    · simpa [includesSub] using he
    · simp [he] at h
  | cons c t ih =>
    intro needle n h
    by_cases hp : List.isPrefixOf needle (c :: t) = true
    · simp [includesSub, hp]
    · simp only [indexOfSub, hp, if_false] at h
      cases hm : indexOfSub t needle with
      | none => simp [hm] at h
      | some m => simp [includesSub, ih hm]

/-- C6 (dialect gate precedence): for every input with a language tag other
than the supported `"swift"` the engine returns immediately with the text
unchanged, `applied = false` and reason `unsupported-dialect`, regardless of
the text content; the gate precedes any text scanning. -/
theorem c6_dialect_gate (language : String) (contents : List Char)
    (h : language ≠ "swift") :
    withWorkletCleanup language contents = ⟨contents, false, Reason.unsupportedDialect⟩ := by
  simp [withWorkletCleanup, h]

/-- Witness for C6 at the tag `"objc"` and a text that would otherwise match
strategy 1. -/
theorem c6_dialect_gate_witness :
    ("objc" : String) ≠ "swift" ∧
      withWorkletCleanup "objc" c6In = ⟨c6In, false, Reason.unsupportedDialect⟩ :=
  ⟨by decide, c6_dialect_gate "objc" c6In (by decide)⟩

/-- C7 (already present): for every supported-dialect input text containing
both callback markers the engine returns the text unchanged with
`applied = false` and reason `already-present`, before any anchor strategy
is consulted. -/
theorem c7_already_present (contents : List Char)
    (hT : includesSub contents markerTerminate = true)
    (hB : includesSub contents markerBackground = true) :
    withWorkletCleanup "swift" contents = ⟨contents, false, Reason.alreadyPresent⟩ :=
  run_already_present hT hB

/-- Witness for C7 at a text containing both markers. -/
theorem c7_already_present_witness :
    includesSub c7In markerTerminate = true ∧
    includesSub c7In markerBackground = true ∧
    withWorkletCleanup "swift" c7In = ⟨c7In, false, Reason.alreadyPresent⟩ :=
  ⟨by decide, by decide, c7_already_present c7In (by decide) (by decide)⟩

/-- C5 (partial-state safety): for every supported-dialect input text that
contains exactly one of the two callback markers the engine returns the
text unchanged with `applied = false` and reason `partially-present`; it
never inserts anything in this split state. -/
theorem c5_partial_state (contents : List Char)
    (h : (includesSub contents markerTerminate = true ∧
            includesSub contents markerBackground = false) ∨
         (includesSub contents markerTerminate = false ∧
            includesSub contents markerBackground = true)) :
    withWorkletCleanup "swift" contents = ⟨contents, false, Reason.partiallyPresent⟩ := by
  rcases h with ⟨hT, hB⟩ | ⟨hT, hB⟩ <;> simp [withWorkletCleanup, hT, hB]

/-- Witness for C5 at a text containing only the background marker. -/
theorem c5_partial_state_witness :
    (includesSub c5In markerTerminate = false ∧
        includesSub c5In markerBackground = true) ∧
    withWorkletCleanup "swift" c5In = ⟨c5In, false, Reason.partiallyPresent⟩ :=
  ⟨⟨by decide, by decide⟩, c5_partial_state c5In (Or.inr ⟨by decide, by decide⟩)⟩

/-- C8 (no anchor found): for every supported-dialect input with neither
marker present on which all three anchor strategies fail, the engine
returns the source text unchanged with `applied = false` and reason
`no-anchor-found`. -/
theorem c8_no_anchor (contents : List Char)
    (hT : includesSub contents markerTerminate = false)
    (hB : includesSub contents markerBackground = false)
    (h1 : strategy1 contents = none)
    (h2 : strategy2 contents = none)
    (h3 : strategy3 contents = none) :
    withWorkletCleanup "swift" contents = ⟨contents, false, Reason.noAnchorFound⟩ := by
  simp [withWorkletCleanup, hT, hB, h1, h2, h3]

/-- Witness for C8 at a single empty class with no anchors. -/
theorem c8_no_anchor_witness :
    strategy1 c8In = none ∧ strategy2 c8In = none ∧ strategy3 c8In = none ∧
    withWorkletCleanup "swift" c8In = ⟨c8In, false, Reason.noAnchorFound⟩ :=
  ⟨by decide, by decide, by decide,
    c8_no_anchor c8In (by decide) (by decide) (by decide) (by decide) (by decide)⟩

/-- C9 (no fatal errors): the engine is a total function of its two inputs,
and on every input it either applies a strategy or returns the text
unchanged — the worst case is a no-op with diagnostics, never a fault. -/
theorem c9_no_fatal (language : String) (contents : List Char) :
    (withWorkletCleanup language contents).applied = true ∨
    (withWorkletCleanup language contents).sourceText = contents := by
  unfold withWorkletCleanup
  repeat' split
  all_goals simp

/-- C10 (markers are plain substrings): whenever either bare method name
occurs anywhere in a supported-dialect text — also inside a comment, a
string literal or an unrelated identifier, which plain containment cannot
distinguish — the engine treats the marker as present: it changes nothing
and reports `already-present` or `partially-present` instead of patching. -/
theorem c10_marker_substring (contents : List Char)
    (h : includesSub contents markerTerminate = true ∨
         includesSub contents markerBackground = true) :
    (withWorkletCleanup "swift" contents).sourceText = contents ∧
    (withWorkletCleanup "swift" contents).applied = false ∧
    ((withWorkletCleanup "swift" contents).reason = Reason.alreadyPresent ∨
     (withWorkletCleanup "swift" contents).reason = Reason.partiallyPresent) := by
  cases hT : includesSub contents markerTerminate <;>
    cases hB : includesSub contents markerBackground <;>
    simp_all [withWorkletCleanup]

/-- Witness for C10 at a text whose only marker occurrence is inside a
comment and which would otherwise match strategy 1. -/
theorem c10_marker_substring_witness :
    includesSub c10In markerTerminate = true ∧
    (withWorkletCleanup "swift" c10In).sourceText = c10In ∧
    (withWorkletCleanup "swift" c10In).applied = false ∧
    ((withWorkletCleanup "swift" c10In).reason = Reason.alreadyPresent ∨
     (withWorkletCleanup "swift" c10In).reason = Reason.partiallyPresent) :=
  ⟨by decide, c10_marker_substring c10In (Or.inl (by decide))⟩

/-- C3 (strategy priority): on a supported-dialect markerless input whose
text matches both the strategy-1 and the strategy-2 pattern, the engine's
result is exactly the strategy-1 splice — the first match wins and the
strategy-2 match is never consulted. -/
theorem c3_strategy_priority (contents out1 out2 : List Char)
    (hT : includesSub contents markerTerminate = false)
    (hB : includesSub contents markerBackground = false)
    (h1 : strategy1 contents = some out1)
    (h2 : strategy2 contents = some out2) :
    withWorkletCleanup "swift" contents = ⟨out1, true, Reason.appliedStrategy1⟩ := by
  simp [withWorkletCleanup, hT, hB, h1]

/-- An option known to hold a value equals `some` of its default read. -/
theorem option_eq_some_getD {o : Option (List Char)} (d : List Char)
    (h : o.isSome = true) : o = some (o.getD d) := by
  cases o <;> simp_all

/-- Witness for C3 at a template matching both patterns. -/
theorem c3_strategy_priority_witness :
    (strategy1 c3In).isSome = true ∧ (strategy2 c3In).isSome = true ∧
    withWorkletCleanup "swift" c3In =
      ⟨(strategy1 c3In).getD [], true, Reason.appliedStrategy1⟩ :=
  ⟨by decide, by decide,
    c3_strategy_priority c3In ((strategy1 c3In).getD []) ((strategy2 c3In).getD [])
      (by decide) (by decide)
      (option_eq_some_getD [] (by decide)) (option_eq_some_getD [] (by decide))⟩

/-- C4 (false-anchor avoidance): when the generic pattern of strategy 3
matches but a `class ` declaration starts within the 50-character lookahead
window after the match, strategy 3 does not modify the text, and when
strategies 1 and 2 also fail the engine returns the unchanged input with
reason `no-anchor-found`. -/
theorem c4_false_anchor (contents pre g1 g2 post : List Char) (n : Nat)
    (hT : includesSub contents markerTerminate = false)
    (hB : includesSub contents markerBackground = false)
    (h1 : strategy1 contents = none)
    (h2 : strategy2 contents = none)
    (hf : s3Find contents = some (pre, g1, g2, post))
    (hidx : indexOfSub post classSp = some n)
    (hn : n ≤ 50) :
    strategy3 contents = none ∧
    withWorkletCleanup "swift" contents = ⟨contents, false, Reason.noAnchorFound⟩ := by
  have hg : s3Guard post = false := by
    have hinc := includesSub_of_indexOf hidx
    have hjs : jsIndexOf post classSp = (n : Int) := by simp [jsIndexOf, hidx]
    simp only [s3Guard, hinc, hjs, Bool.not_true, Bool.false_or,
      decide_eq_false_iff_not]
    omega
  have h3 : strategy3 contents = none := by simp [strategy3, hf, hg]
  exact ⟨h3, by simp [withWorkletCleanup, hT, hB, h1, h2, h3]⟩

/-- Witness for C4 at a class whose generic match is followed immediately by
`class B`. -/
theorem c4_false_anchor_witness :
    s3Find c4In = some (String.toList "class A \x7b\n  func f() \x7b\n  ",
      String.toList "\x7d\n", String.toList "\x7d\n", String.toList "class B \x7b\n\x7d\n") ∧
    strategy3 c4In = none ∧
    withWorkletCleanup "swift" c4In = ⟨c4In, false, Reason.noAnchorFound⟩ := by
  refine ⟨by decide, ?_⟩
  exact c4_false_anchor c4In (String.toList "class A \x7b\n  func f() \x7b\n  ")
    (String.toList "\x7d\n") (String.toList "\x7d\n") (String.toList "class B \x7b\n\x7d\n") 0
    (by decide) (by decide) (by decide) (by decide) (by decide) (by decide) (by decide)

/-- C2 (idempotence): whenever the engine applies any of the three
strategies, running it again on the output returns that text unchanged with
`applied = false` and reason `already-present`, because the inserted block
contains both callback markers. -/
theorem c2_idempotent (language : String) (contents : List Char)
    (h : (withWorkletCleanup language contents).applied = true) :
    withWorkletCleanup language ((withWorkletCleanup language contents).sourceText) =
      ⟨(withWorkletCleanup language contents).sourceText, false, Reason.alreadyPresent⟩ := by
  obtain ⟨hl, -, -, -⟩ := applied_strategies h
  subst hl
  obtain ⟨a, b, hout⟩ := applied_infix h
  have hT : includesSub (withWorkletCleanup "swift" contents).sourceText markerTerminate = true := by
    rw [hout]; exact includesSub_of_inner cleanup_has_terminate
  have hB : includesSub (withWorkletCleanup "swift" contents).sourceText markerBackground = true := by
    rw [hout]; exact includesSub_of_inner cleanup_has_background
  exact run_already_present hT hB

/-- Witness for C2 at a two-class template applied via strategy 1. -/
theorem c2_idempotent_witness :
    (withWorkletCleanup "swift" c2In).applied = true ∧
    withWorkletCleanup "swift" ((withWorkletCleanup "swift" c2In).sourceText) =
      ⟨(withWorkletCleanup "swift" c2In).sourceText, false, Reason.alreadyPresent⟩ :=
  ⟨by decide, c2_idempotent "swift" c2In (by decide)⟩

/-- C1 as stated is false: on `c1In` strategy 1 succeeds, but the output is
one byte longer than input plus injection block — the single newline
between the two classes was rewritten to two — so no removal of the block
from the output can restore the input. -/
theorem c1_counterexample :
    (withWorkletCleanup "swift" c1In).applied = true ∧
    ¬ ∃ a b, (withWorkletCleanup "swift" c1In).sourceText = a ++ CLEANUP_METHODS ++ b ∧
        c1In = a ++ b := by
  refine ⟨by decide, ?_⟩
  rintro ⟨a, b, hout, hin⟩
  have h1 : (withWorkletCleanup "swift" c1In).sourceText.length =
      a.length + CLEANUP_METHODS.length + b.length := by
    rw [hout]; simp; omega
  have h2 : c1In.length = a.length + b.length := by rw [hin]; simp
  have e1 : (withWorkletCleanup "swift" c1In).sourceText.length =
      c1In.length + CLEANUP_METHODS.length + 1 := by decide
  omega

/-- C1 amended: every successful application inserts the injection block
verbatim at one point and keeps all other bytes — except under strategy 1,
which additionally rewrites the whitespace run between the primary class's
closing brace and the auxiliary class declaration to exactly two newlines
(so removal of the block is byte-identical to the input exactly when that
run already was two newlines, and always under strategies 2 and 3). -/
theorem c1_byte_preservation_amended (language : String) (contents : List Char)
    (h : (withWorkletCleanup language contents).applied = true) :
    (∃ a b, contents = a ++ b ∧
        (withWorkletCleanup language contents).sourceText = a ++ CLEANUP_METHODS ++ b) ∨
    (∃ a w b, contents = a ++ '\n' :: '\x7d' :: (w ++ classRND ++ b) ∧
        (withWorkletCleanup language contents).sourceText =
          a ++ CLEANUP_METHODS ++ '\n' :: '\x7d' :: '\n' :: '\n' :: (classRND ++ b) ∧
        (∀ ch ∈ w, isSpace ch = true) ∧ '\n' ∈ w) := by
  obtain ⟨-, -, -, hs⟩ := applied_strategies h
  rcases hs with h1 | h2 | h3
  · right
    obtain ⟨a, w, b, hc, hout, hall, hmem⟩ := strategy1_decomp h1
    exact ⟨a, w, b, hc, hout, hall, hmem⟩
  · left
    obtain ⟨a, b, hc, hout⟩ := strategy2_decomp h2
    exact ⟨a, b, hc, hout⟩
  · left
    obtain ⟨a, b, hc, hout⟩ := strategy3_decomp h3
    exact ⟨a, b, hc, hout⟩

/-- Witness for the amended C1 at an input applied via strategy 3. -/
theorem c1_byte_preservation_amended_witness :
    (withWorkletCleanup "swift" c1WIn).applied = true ∧
    ((∃ a b, c1WIn = a ++ b ∧
        (withWorkletCleanup "swift" c1WIn).sourceText = a ++ CLEANUP_METHODS ++ b) ∨
     (∃ a w b, c1WIn = a ++ '\n' :: '\x7d' :: (w ++ classRND ++ b) ∧
        (withWorkletCleanup "swift" c1WIn).sourceText =
          a ++ CLEANUP_METHODS ++ '\n' :: '\x7d' :: '\n' :: '\n' :: (classRND ++ b) ∧
        (∀ ch ∈ w, isSpace ch = true) ∧ '\n' ∈ w)) :=
  ⟨by decide, c1_byte_preservation_amended "swift" c1WIn (by decide)⟩

end WorkletCleanup
